import Mathlib

/-!
Verification of the `archivers` repository (Slack archiver, Gmail archiver,
Calendar archiver) against its natural-language specification.

The JavaScript sources are shallowly embedded: strings are `List Char`,
the regex-replacement passes of `GmailArchiver.cleanText` are explicit
scanners with JavaScript regex semantics (left-to-right global scan,
greedy and lazy quantifier behaviour reproduced where it matters),
pagination loops are explicit recursions over a trace of API responses,
and the mutable user-info cache is explicit state passing.
-/

/-! ### Character helpers -/

/-- ASCII lower-casing, as performed by the `i` flag of a JavaScript regex on
the ASCII patterns occurring in `cleanText`. -/
def asciiLower (c : Char) : Char :=
  match c with
  | 'A' => 'a' | 'B' => 'b' | 'C' => 'c' | 'D' => 'd' | 'E' => 'e' | 'F' => 'f'
  | 'G' => 'g' | 'H' => 'h' | 'I' => 'i' | 'J' => 'j' | 'K' => 'k' | 'L' => 'l'
  | 'M' => 'm' | 'N' => 'n' | 'O' => 'o' | 'P' => 'p' | 'Q' => 'q' | 'R' => 'r'
  | 'S' => 's' | 'T' => 't' | 'U' => 'u' | 'V' => 'v' | 'W' => 'w' | 'X' => 'x'
  | 'Y' => 'y' | 'Z' => 'z' | d => d

/-- The JavaScript `\s` character class (also the character set removed by
`String.prototype.trim`). -/
def isJsWs (c : Char) : Bool :=
  c = ' ' || c = '\t' || c = '\n' || c = '\r' || c = '\u000b' || c = '\u000c' ||
  c = '\u00a0' || c = '\u1680' || ('\u2000' ≤ c && c ≤ '\u200a') ||
  c = '\u2028' || c = '\u2029' || c = '\u202f' || c = '\u205f' ||
  c = '\u3000' || c = '\ufeff'

/-- The JavaScript `\w` (word) character class, used by the `\b` assertion. -/
def isWordChar (c : Char) : Bool :=
  ('a' ≤ c && c ≤ 'z') || ('A' ≤ c && c ≤ 'Z') || ('0' ≤ c && c ≤ '9') || c = '_'

/-- An ASCII letter (the `[a-z]` class under the `i` flag). -/
def isAsciiLetter (c : Char) : Bool :=
  ('a' ≤ c && c ≤ 'z') || ('A' ≤ c && c ≤ 'Z')

theorem asciiLower_isAlpha {c : Char} (h : c.isAlpha = true) :
    (asciiLower c).isAlpha = true := by
  unfold asciiLower
  split <;> first | decide | exact h

/-! ### Tiny parsing combinators over `List Char`

Each regex of `cleanText` is compiled by hand into a deterministic matcher
built from these combinators.  A matcher takes the text at the current scan
position and either fails or returns the text after the matched span. -/

/-- Consume one expected character. -/
def pChar (c : Char) : List Char → Option (List Char)
  | [] => none
  | x :: xs => if x = c then some xs else none

/-- Consume one expected character, ASCII case-insensitively (`i` flag). -/
def pCharCI (c : Char) : List Char → Option (List Char)
  | [] => none
  | x :: xs => if asciiLower x = asciiLower c then some xs else none

/-- Consume an expected literal string. -/
def pLit : List Char → List Char → Option (List Char)
  | [], t => some t
  | p :: ps, t => (pChar p t).bind (pLit ps)

/-- Consume an expected literal string, ASCII case-insensitively. -/
def pLitCI : List Char → List Char → Option (List Char)
  | [], t => some t
  | p :: ps, t => (pCharCI p t).bind (pLitCI ps)

/-- Lazy search: consume up to and including the earliest occurrence of a
literal (the `[\s\S]*?lit` idiom); fail when the literal never occurs. -/
def pFind (pat : List Char) : List Char → Option (List Char)
  | [] => pLit pat []
  | x :: xs =>
    match pLit pat (x :: xs) with
    | some r => some r
    | none => pFind pat xs

/-- Case-insensitive `pFind`. -/
def pFindCI (pat : List Char) : List Char → Option (List Char)
  | [] => pLitCI pat []
  | x :: xs =>
    match pLitCI pat (x :: xs) with
    | some r => some r
    | none => pFindCI pat xs

theorem pChar_suffix {c : Char} {t r : List Char} (h : pChar c t = some r) :
    r <:+ t := by
  cases t with
  | nil => simp [pChar] at h
  | cons x xs =>
    simp only [pChar] at h
    split at h
    · cases h; exact ⟨[x], rfl⟩
    · cases h

theorem pCharCI_suffix {c : Char} {t r : List Char} (h : pCharCI c t = some r) :
    r <:+ t := by
  cases t with
  | nil => simp [pCharCI] at h
  | cons x xs =>
    simp only [pCharCI] at h
    split at h
    · cases h; exact ⟨[x], rfl⟩
    · cases h

theorem pLit_suffix {p t r : List Char} (h : pLit p t = some r) : r <:+ t := by
  induction p generalizing t with
  | nil => simp [pLit] at h; simp [h]
  | cons c cs ih =>
    simp only [pLit, Option.bind_eq_some] at h
    obtain ⟨u, hu, hr⟩ := h
    exact (ih hr).trans (pChar_suffix hu)

theorem pLitCI_suffix {p t r : List Char} (h : pLitCI p t = some r) : r <:+ t := by
  induction p generalizing t with
  | nil => simp [pLitCI] at h; simp [h]
  | cons c cs ih =>
    simp only [pLitCI, Option.bind_eq_some] at h
    obtain ⟨u, hu, hr⟩ := h
    exact (ih hr).trans (pCharCI_suffix hu)

theorem span_snd_suffix (f : Char → Bool) (t : List Char) :
    (t.span f).2 <:+ t := by
  simp only [List.span_eq_take_drop]
  exact t.dropWhile_suffix f

/-! ### Global regex replacement

JavaScript `String.replace` with a `g` regex scans left to right: at each
position it tries the pattern; on a match it emits the replacement and
resumes after the consumed span, otherwise it emits the character and
advances by one.  `scanRep` implements that scan; every matcher consumes at
least one character on success, so fuel `t.length` never runs out. -/

def scanRep (step : List Char → Option (List Char × List Char)) :
    Nat → List Char → List Char
  | 0, t => t
  | _ + 1, [] => []
  | fuel + 1, c :: cs =>
    match step (c :: cs) with
    | some (out, rest) => out ++ scanRep step fuel rest
    | none => c :: scanRep step fuel cs

/-- One full global-replace pass over the text. -/
def runPass (step : List Char → Option (List Char × List Char))
    (t : List Char) : List Char :=
  scanRep step t.length t

theorem scanRep_eq_self (step : List Char → Option (List Char × List Char))
    {l : List Char} (h : ∀ t, t <:+ l → step t = none) :
    ∀ n t, t <:+ l → t.length ≤ n → scanRep step n t = t := by
  intro n
  induction n with
  | zero =>
    intro t _ hl
    cases t with
    | nil => rfl
    | cons c cs => simp at hl
  | succ n ih =>
    intro t ht hl
    cases t with
    | nil => rfl
    | cons c cs =>
      have hs : cs <:+ l := (List.suffix_cons c cs).trans ht
      simp only [scanRep, h _ ht]
      rw [ih cs hs (by simpa using Nat.le_of_succ_le_succ hl)]

theorem runPass_eq_self (step : List Char → Option (List Char × List Char))
    {l : List Char} (h : ∀ t, t <:+ l → step t = none) : runPass step l = l :=
  scanRep_eq_self step h l.length l (List.suffix_refl l) (Nat.le_refl _)

/-! ### The matchers of the `cleanText` passes -/

/-- Regex `/<style[^>]*>[\s\S]*?<\/style>/gi` -/
def mStyleBlock (t : List Char) : Option (List Char × List Char) := do
  let r1 ← pLitCI "<style".toList t
  let r2 ← pChar '>' (r1.dropWhile (· != '>'))
  let r3 ← pFindCI "</style>".toList r2
  pure ([], r3)

/-- Regex `/style\s*=\s*"[^"]*"/gi` -/
def mStyleAttrD (t : List Char) : Option (List Char × List Char) := do
  let r1 ← pLitCI "style".toList t
  let r2 ← pChar '=' (r1.dropWhile isJsWs)
  let r3 ← pChar '"' (r2.dropWhile isJsWs)
  let r4 ← pChar '"' (r3.dropWhile (· != '"'))
  pure ([], r4)

/-- The single-quote character (written via its code point to keep character
literals simple). -/
def quoteChar : Char := Char.ofNat 39

/-- Regex `/style\s*=\s*'[^']*'/gi` -/
def mStyleAttrS (t : List Char) : Option (List Char × List Char) := do
  let r1 ← pLitCI "style".toList t
  let r2 ← pChar '=' (r1.dropWhile isJsWs)
  let r3 ← pChar quoteChar (r2.dropWhile isJsWs)
  let r4 ← pChar quoteChar (r3.dropWhile (· != quoteChar))
  pure ([], r4)

/-- Regex `/<script[^>]*>[\s\S]*?<\/script>/gi` -/
def mScript (t : List Char) : Option (List Char × List Char) := do
  let r1 ← pLitCI "<script".toList t
  let r2 ← pChar '>' (r1.dropWhile (· != '>'))
  let r3 ← pFindCI "</script>".toList r2
  pure ([], r3)

/-- Regex `/<!--[\s\S]*?-->/g` -/
def mComment (t : List Char) : Option (List Char × List Char) := do
  let r1 ← pLit "<!--".toList t
  let r2 ← pFind "-->".toList r1
  pure ([], r2)

/-- The `[^>]+>` tail of the tag regex: at least one non-`>` then `>`. -/
def tagClose (u : List Char) : Option (List Char) :=
  if (u.takeWhile (· != '>')).isEmpty then none
  else pChar '>' (u.dropWhile (· != '>'))

/-- Regex `/<\/?[^>]+>/g` (with the backtracking of the optional `\/` reproduced:
on `</>` the engine gives back the slash so that `[^>]+` can match it). -/
def mTag (t : List Char) : Option (List Char × List Char) :=
  (pChar '<' t).bind fun r1 =>
    (match pChar '/' r1 with
     | some r2 => (tagClose r2).orElse fun _ => tagClose r1
     | none => tagClose r1).map fun r => ([], r)

/-- Regex `/\{[^}]*\}/g` -/
def mBrace (t : List Char) : Option (List Char × List Char) := do
  let r1 ← pChar '{' t
  let r2 ← pChar '}' (r1.dropWhile (· != '}'))
  pure ([], r2)

/-- The `\s*[^;]+;?` tail shared by the CSS-property regexes.  Because
`\s ⊆ [^;]`, the combined greedy extent is the span up to the first `;`
(consumed when present); the match fails only when that span is empty. -/
def cssValue (u : List Char) : Option (List Char) :=
  if (u.takeWhile (· != ';')).isEmpty then none
  else
    let r := u.dropWhile (· != ';')
    some ((pChar ';' r).getD r)

/-- CSS-property regex whose literal part already ends in `:`
(`/width:\s*[^;]+;?/gi` and friends). -/
def mCssA (lit : String) (t : List Char) : Option (List Char × List Char) :=
  (pLitCI lit.toList t).bind fun r1 =>
    (cssValue r1).map fun r2 => ([], r2)

/-- CSS-property regex of shape `lit[a-z-]*:` (`/background[a-z-]*:\s*[^;]+;?/gi`
and friends). -/
def mCssB (lit : String) (t : List Char) : Option (List Char × List Char) :=
  (pLitCI lit.toList t).bind fun r1 =>
    (pChar ':' (r1.dropWhile fun c => isAsciiLetter c || c = '-')).bind fun r3 =>
      (cssValue r3).map fun r4 => ([], r4)

/-- CSS-property regex of shape `lit[a-z-]+:` with `lit` ending in `-`
(`/font-[a-z-]+:\s*[^;]+;?/gi`, `/text-[a-z-]+:\s*[^;]+;?/gi`). -/
def mCssC (lit : String) (t : List Char) : Option (List Char × List Char) :=
  (pLitCI lit.toList t).bind fun r1 =>
    if (r1.takeWhile fun c => isAsciiLetter c || c = '-').isEmpty then none
    else
      (pChar ':' (r1.dropWhile fun c => isAsciiLetter c || c = '-')).bind fun r3 =>
        (cssValue r3).map fun r4 => ([], r4)

/-- Regex `/=3D/g → '='` -/
def mQP3D (t : List Char) : Option (List Char × List Char) :=
  (pLit "=3D".toList t).map fun r => (['='], r)

/-- Regex `/=20/g → ' '` -/
def mQP20 (t : List Char) : Option (List Char × List Char) :=
  (pLit "=20".toList t).map fun r => ([' '], r)

/-- Regex `/=\r?\n/g → ''` (quoted-printable soft line break) -/
def mSoftBreak (t : List Char) : Option (List Char × List Char) :=
  (pChar '=' t).bind fun r1 =>
    (pChar '\n' ((pChar '\r' r1).getD r1)).map fun r3 => ([], r3)

/-- One literal entity replacement (`new RegExp(entity, 'g')` on the fixed
table is a literal, case-sensitive, global substring replacement). -/
def mEnt (pat repl : String) (t : List Char) : Option (List Char × List Char) :=
  (pLit pat.toList t).map fun r => (repl.toList, r)

/-- The fixed entity table, in the source's (object-literal) order. -/
def entityTable : List (String × String) :=
  [("&nbsp;", " "), ("&lt;", "<"), ("&gt;", ">"), ("&amp;", "&"),
   ("&quot;", "\""), ("&#39;", ⟨[quoteChar]⟩), ("&apos;", ⟨[quoteChar]⟩),
   ("&ldquo;", "“"), ("&rdquo;", "”"), ("&lsquo;", "‘"),
   ("&rsquo;", "’"), ("&ndash;", "–"), ("&mdash;", "—"),
   ("&hellip;", "…"), ("&copy;", "©"), ("&reg;", "®"),
   ("&trade;", "™")]

/-- The entity-decoding loop: one global pass per table entry, in order. -/
def applyEntities (t : List Char) : List Char :=
  entityTable.foldl (fun acc pr => runPass (mEnt pr.1 pr.2) acc) t

/-- Regex `/&#\d+;/g → ''` -/
def mNumEnt (t : List Char) : Option (List Char × List Char) :=
  (pLit "&#".toList t).bind fun r1 =>
    if (r1.takeWhile Char.isDigit).isEmpty then none
    else (pChar ';' (r1.dropWhile Char.isDigit)).map fun r => ([], r)

/-- Class `[0-9a-f]` under the `i` flag. -/
def isHexCI (c : Char) : Bool :=
  c.isDigit || ('a' ≤ c && c ≤ 'f') || ('A' ≤ c && c ≤ 'F')

/-- Regex `/&#x[0-9a-f]+;/gi → ''` -/
def mHexEnt (t : List Char) : Option (List Char × List Char) :=
  (pLitCI "&#x".toList t).bind fun r1 =>
    if (r1.takeWhile isHexCI).isEmpty then none
    else (pChar ';' (r1.dropWhile isHexCI)).map fun r => ([], r)

def styleExts : List String := ["css", "js", "gif", "png", "jpg", "jpeg"]

/-- After `\.`: one of the extensions followed by a `\b` boundary. -/
def hasStyleExtAt (cs : List Char) : Bool :=
  styleExts.any fun e =>
    match pLitCI e.toList cs with
    | some r =>
      match r with
      | [] => true
      | c :: _ => !isWordChar c
    | none => false

/-- Whether `\.(css|js|gif|png|jpg|jpeg)\b` matches anywhere in the non-space
run; only existence matters, because the final greedy `[^\s]*` always extends
the match to the end of the run. -/
def hasStyleExt : List Char → Bool
  | [] => false
  | c :: cs => (c = '.' && hasStyleExtAt cs) || hasStyleExt cs

/-- Regex `/https?:\/\/[^\s]*\.(css|js|gif|png|jpg|jpeg)\b[^\s]*/gi` replaced by a
fixed placeholder. -/
def mUrl (t : List Char) : Option (List Char × List Char) :=
  (pLitCI "http".toList t).bind fun r1 =>
    let r2 := (pCharCI 's' r1).getD r1
    (pLit "://".toList r2).bind fun r3 =>
      if hasStyleExt (r3.takeWhile fun c => !isJsWs c) then
        some ("[removed styling/tracking URL]".toList,
              r3.dropWhile fun c => !isJsWs c)
      else none

/-- Regex `/\r\n/g → '\n'` -/
def mCRLF (t : List Char) : Option (List Char × List Char) :=
  (pLit "\r\n".toList t).map fun r => (['\n'], r)

/-- Regex `/\r/g → '\n'` -/
def mCR (t : List Char) : Option (List Char × List Char) :=
  (pChar '\r' t).map fun r => (['\n'], r)

/-- Regex `/\n{3,}/g → '\n\n'` -/
def mNl3 (t : List Char) : Option (List Char × List Char) :=
  if 3 ≤ (t.takeWhile (· == '\n')).length then
    some (['\n', '\n'], t.dropWhile (· == '\n'))
  else none

/-- Regex `/[ \t]{2,}/g → ' '` -/
def mSpTab2 (t : List Char) : Option (List Char × List Char) :=
  if 2 ≤ (t.takeWhile fun c => c = ' ' || c = '\t').length then
    some ([' '], t.dropWhile fun c => c = ' ' || c = '\t')
  else none

/-! `text.replace(/^\s+/gm, '')`: at the start of the string and right after
each `\n`, a greedy `\s+` span (which may itself cross newlines, since `\s`
matches `\n`) is removed.  `atStart` records whether the current position is
a line start. -/

mutual

/-- Main scan of the `^\s+` pass: emit characters, tracking whether the
position is a line start. -/
def sll (atStart : Bool) : List Char → List Char
  | [] => []
  | c :: cs =>
    if atStart && isJsWs c then sllSkip cs
    else c :: sll (c == '\n') cs

/-- Inside a matched `^\s+` span: drop whitespace, then resume the scan
(the position after a span is never itself a line start with whitespace). -/
def sllSkip : List Char → List Char
  | [] => []
  | d :: ds => if isJsWs d then sllSkip ds else d :: sll (d == '\n') ds

end

/-- Pass `text.replace(/\s+$/gm, '')` as one scan step: at a whitespace run, the
greedy `\s+` backtracks until a `$` position (before a `\n`, or the end of
the string).  At the end of the string the whole run matches; otherwise the
run prefix strictly before its last `\n` matches, provided it is nonempty. -/
def mTrailWS (t : List Char) : Option (List Char × List Char) :=
  match t with
  | [] => none
  | c :: _ =>
    if isJsWs c then
      let run := t.takeWhile isJsWs
      let rest := t.dropWhile isJsWs
      if rest.isEmpty then some ([], [])
      else
        let rrun := run.reverse
        match rrun.dropWhile (· != '\n') with
        | [] => none
        | _ :: preRev =>
          if preRev.isEmpty then none
          else some ([], ('\n' :: (rrun.takeWhile (· != '\n')).reverse) ++ rest)
    else none

/-- Pass `text.split('\n')` -/
def splitNl : List Char → List (List Char)
  | [] => [[]]
  | c :: cs =>
    if c = '\n' then [] :: splitNl cs
    else
      match splitNl cs with
      | [] => [[c]]
      | ln :: lns => (c :: ln) :: lns

/-- Pass `lines.join('\n')` -/
def joinNl : List (List Char) → List Char
  | [] => []
  | [ln] => ln
  | ln :: lns => ln ++ '\n' :: joinNl lns

/-- Pass `text.trim()` (JavaScript trim removes the `isJsWs` set from both ends). -/
def trimJs (l : List Char) : List Char :=
  ((l.dropWhile isJsWs).reverse.dropWhile isJsWs).reverse

/-- The line-start patterns of the CSS-remnant line filter. -/
def cssLinePrefixes : List String :=
  ["font-", "color:", "background", "margin", "padding", "border",
   "width:", "height:", "display:", "position:", "text-"]

/-- Regex `^#[0-9a-f]{3,6}$` (case-insensitive) on the trimmed line. -/
def isHexColorLine (t : List Char) : Bool :=
  match t with
  | c :: hs =>
    c = '#' && hs.all isHexCI && decide (3 ≤ hs.length) && decide (hs.length ≤ 6)
  | [] => false

/-- The predicate of `text.split('\n').filter(line => ...)`: which lines the
CSS-remnant filter keeps. -/
def keepLine (ln : List Char) : Bool :=
  let t := trimJs ln
  if t.isEmpty then true
  else if cssLinePrefixes.any fun p => (pLitCI p.toList t).isSome then false
  else if !(t.takeWhile Char.isDigit).isEmpty &&
          (pLit "px".toList (t.dropWhile Char.isDigit)).isSome then false
  else if (pLit "rgb(".toList t).isSome then false
  else if isHexColorLine t then false
  else if t == [';'] then false
  else if t == ['{'] || t == ['}'] then false
  else true

/-- Function `GmailArchiver.cleanText`, transcribed pass by pass in source order
(gmail-archiver.js lines 133–226).  The falsy guard `if (!text) return ''`
is the empty-string test; `null`/`undefined` inputs are handled by
`cleanTextJS` below. -/
def cleanTextL (l : List Char) : List Char :=
  if l.isEmpty then [] else
  let t := runPass mStyleBlock l
  let t := runPass mStyleAttrD t
  let t := runPass mStyleAttrS t
  let t := runPass mScript t
  let t := runPass mComment t
  let t := runPass mTag t
  let t := runPass mBrace t
  let t := runPass (mCssC "font-") t
  let t := runPass (mCssA "color:") t
  let t := runPass (mCssB "background") t
  let t := runPass (mCssB "margin") t
  let t := runPass (mCssB "padding") t
  let t := runPass (mCssB "border") t
  let t := runPass (mCssA "width:") t
  let t := runPass (mCssA "height:") t
  let t := runPass (mCssA "display:") t
  let t := runPass (mCssA "position:") t
  let t := runPass (mCssC "text-") t
  let t := runPass mQP3D t
  let t := runPass mQP20 t
  let t := runPass mSoftBreak t
  let t := applyEntities t
  let t := runPass mNumEnt t
  let t := runPass mHexEnt t
  let t := runPass mUrl t
  let t := runPass mCRLF t
  let t := runPass mCR t
  let t := runPass mNl3 t
  let t := runPass mSpTab2 t
  let t := sll true t
  let t := runPass mTrailWS t
  let t := joinNl ((splitNl t).filter keepLine)
  trimJs t

/-- Function `cleanText` on Lean strings. -/
def cleanText (s : String) : String := (cleanTextL s.toList).asString

/-- Function `cleanText` including the `null`/`undefined` case of the falsy guard. -/
def cleanTextJS : Option String → String
  | none => ""
  | some s => cleanText s

/-! ### Plain text

A restricted class of inputs on which every pass of `cleanText` is proved to
be the identity: ASCII letters, single spaces and single newlines, starting
and ending with a letter, whose lines the CSS-remnant filter keeps.  (Full
idempotence of `cleanText` fails — see the claim C2 theorems below.) -/

def plainLetters : List Char :=
  "ABCDEFGHIJKLMNOPQRSTUVWXYZabcdefghijklmnopqrstuvwxyz".toList

def isPlainLetter (c : Char) : Bool := plainLetters.contains c

def plainChar (c : Char) : Bool := isPlainLetter c || c = ' ' || c = '\n'

/-- Space or newline, the only whitespace a plain string may contain. -/
def spChar (c : Char) : Bool := c = ' ' || c = '\n'

/-- No two adjacent whitespace characters. -/
def adjOk : List Char → Bool
  | a :: b :: rest => (!(spChar a && spChar b)) && adjOk (b :: rest)
  | _ => true

def headIsLetter : List Char → Bool
  | [] => true
  | c :: _ => isPlainLetter c

def lastIsLetter (l : List Char) : Bool := headIsLetter l.reverse

def isPlainL (l : List Char) : Bool :=
  l.all plainChar && adjOk l && headIsLetter l && lastIsLetter l &&
  (splitNl l).all keepLine

def isPlainStr (s : String) : Bool := isPlainL s.toList

theorem isPlainLetter_spec {p : Char → Bool} (hp : plainLetters.all p = true)
    {c : Char} (h : isPlainLetter c = true) : p c = true := by
  have hm : c ∈ plainLetters := by
    simpa [isPlainLetter, List.contains] using h
  exact List.all_eq_true.mp hp c hm

theorem plainChar_spec {p : Char → Bool}
    (hp : ((' ' :: '\n' :: plainLetters).all p) = true)
    {c : Char} (h : plainChar c = true) : p c = true := by
  have hm : c ∈ ' ' :: '\n' :: plainLetters := by
    simp only [plainChar, Bool.or_eq_true, decide_eq_true_eq] at h
    rcases h with (h | h) | h
    · exact List.mem_cons_of_mem _ (List.mem_cons_of_mem _
        (by simpa [isPlainLetter, List.contains] using h))
    · simp [h]
    · simp [h]
  exact List.all_eq_true.mp hp c hm

theorem plainChar_asciiLower {c : Char} (h : plainChar c = true) :
    plainChar (asciiLower c) = true :=
  plainChar_spec (p := fun c => plainChar (asciiLower c)) (by decide) h

theorem plainChar_ne {c d : Char} (h : plainChar c = true)
    (hd : plainChar d = false) : c ≠ d := by
  intro he; rw [he] at h; rw [h] at hd; cases hd

/-! Failure of the combinators on plain text -/

theorem pChar_none_plain {d : Char} (hd : plainChar d = false) {l : List Char}
    (hall : ∀ c ∈ l, plainChar c = true) :
    ∀ t, t <:+ l → pChar d t = none := by
  intro t ht
  cases t with
  | nil => rfl
  | cons x xs =>
    have hx : plainChar x = true := hall x (ht.subset (by simp))
    simp [pChar, plainChar_ne hx hd]

theorem pCharCI_none_plain {d : Char} (hd : plainChar (asciiLower d) = false)
    {l : List Char} (hall : ∀ c ∈ l, plainChar c = true) :
    ∀ t, t <:+ l → pCharCI d t = none := by
  intro t ht
  cases t with
  | nil => rfl
  | cons x xs =>
    have hx : plainChar x = true := hall x (ht.subset (by simp))
    simp [pCharCI, plainChar_ne (plainChar_asciiLower hx) hd]

theorem pLit_none_plain {pat : List Char} {d : Char} (hmem : d ∈ pat)
    (hd : plainChar d = false) {l : List Char}
    (hall : ∀ c ∈ l, plainChar c = true) :
    ∀ t, t <:+ l → pLit pat t = none := by
  induction pat with
  | nil => cases hmem
  | cons p ps ih =>
    intro t ht
    rcases List.mem_cons.mp hmem with rfl | hmem2
    · simp [pLit, pChar_none_plain hd hall t ht]
    · cases t with
      | nil => simp [pLit, pChar]
      | cons x xs =>
        by_cases hx : x = p
        · subst hx
          have hxs : xs <:+ l := (List.suffix_cons x xs).trans ht
          simp [pLit, pChar, ih hmem2 xs hxs]
        · simp [pLit, pChar, hx]

theorem pLitCI_none_plain {pat : List Char} {d : Char} (hmem : d ∈ pat)
    (hd : plainChar (asciiLower d) = false) {l : List Char}
    (hall : ∀ c ∈ l, plainChar c = true) :
    ∀ t, t <:+ l → pLitCI pat t = none := by
  induction pat with
  | nil => cases hmem
  | cons p ps ih =>
    intro t ht
    rcases List.mem_cons.mp hmem with rfl | hmem2
    · simp [pLitCI, pCharCI_none_plain hd hall t ht]
    · cases t with
      | nil => simp [pLitCI, pCharCI]
      | cons x xs =>
        by_cases hx : asciiLower x = asciiLower p
        · have hxs : xs <:+ l := (List.suffix_cons x xs).trans ht
          simp [pLitCI, pCharCI, hx, ih hmem2 xs hxs]
        · simp [pLitCI, pCharCI, hx]

/-! Failure of every `cleanText` matcher on plain text -/

theorem mStyleBlock_none {l : List Char} (hall : ∀ c ∈ l, plainChar c = true) :
    ∀ t, t <:+ l → mStyleBlock t = none := by
  intro t ht
  have hx : pLitCI "<style".toList t = none :=
    pLitCI_none_plain (d := '<') (by decide) (by decide) hall t ht
  unfold mStyleBlock
  rw [hx]
  rfl

theorem mStyleAttrD_none {l : List Char} (hall : ∀ c ∈ l, plainChar c = true) :
    ∀ t, t <:+ l → mStyleAttrD t = none := by
  intro t ht
  unfold mStyleAttrD
  rcases h1 : pLitCI "style".toList t with _ | r1
  · rfl
  · have hr2 : r1.dropWhile isJsWs <:+ l :=
      (List.dropWhile_suffix isJsWs).trans ((pLitCI_suffix h1).trans ht)
    have hx : pChar '=' (r1.dropWhile isJsWs) = none :=
      pChar_none_plain (d := '=') (by decide) hall _ hr2
    simp only [Option.bind_eq_bind, Option.some_bind, hx, Option.none_bind]

theorem mStyleAttrS_none {l : List Char} (hall : ∀ c ∈ l, plainChar c = true) :
    ∀ t, t <:+ l → mStyleAttrS t = none := by
  intro t ht
  unfold mStyleAttrS
  rcases h1 : pLitCI "style".toList t with _ | r1
  · rfl
  · have hr2 : r1.dropWhile isJsWs <:+ l :=
      (List.dropWhile_suffix isJsWs).trans ((pLitCI_suffix h1).trans ht)
    have hx : pChar '=' (r1.dropWhile isJsWs) = none :=
      pChar_none_plain (d := '=') (by decide) hall _ hr2
    simp only [Option.bind_eq_bind, Option.some_bind, hx, Option.none_bind]

theorem mScript_none {l : List Char} (hall : ∀ c ∈ l, plainChar c = true) :
    ∀ t, t <:+ l → mScript t = none := by
  intro t ht
  have hx : pLitCI "<script".toList t = none :=
    pLitCI_none_plain (d := '<') (by decide) (by decide) hall t ht
  unfold mScript
  rw [hx]
  rfl

theorem mComment_none {l : List Char} (hall : ∀ c ∈ l, plainChar c = true) :
    ∀ t, t <:+ l → mComment t = none := by
  intro t ht
  have hx : pLit "<!--".toList t = none :=
    pLit_none_plain (d := '<') (by decide) (by decide) hall t ht
  unfold mComment
  rw [hx]
  rfl

theorem mTag_none {l : List Char} (hall : ∀ c ∈ l, plainChar c = true) :
    ∀ t, t <:+ l → mTag t = none := by
  intro t ht
  have hx : pChar '<' t = none :=
    pChar_none_plain (d := '<') (by decide) hall t ht
  unfold mTag
  rw [hx]
  rfl

theorem mBrace_none {l : List Char} (hall : ∀ c ∈ l, plainChar c = true) :
    ∀ t, t <:+ l → mBrace t = none := by
  intro t ht
  have hx : pChar '{' t = none :=
    pChar_none_plain (d := '{') (by decide) hall t ht
  unfold mBrace
  rw [hx]
  rfl

theorem mCssA_none {l : List Char} (hall : ∀ c ∈ l, plainChar c = true)
    (lit : String) (hmem : ':' ∈ lit.toList) :
    ∀ t, t <:+ l → mCssA lit t = none := by
  intro t ht
  have hx : pLitCI lit.toList t = none :=
    pLitCI_none_plain hmem (by decide) hall t ht
  unfold mCssA
  rw [hx]
  rfl

theorem mCssB_none {l : List Char} (hall : ∀ c ∈ l, plainChar c = true)
    (lit : String) : ∀ t, t <:+ l → mCssB lit t = none := by
  intro t ht
  unfold mCssB
  rcases h1 : pLitCI lit.toList t with _ | r1
  · rfl
  · have hr2 : r1.dropWhile (fun c => isAsciiLetter c || c = '-') <:+ l :=
      (List.dropWhile_suffix _).trans ((pLitCI_suffix h1).trans ht)
    have hx : pChar ':' (r1.dropWhile (fun c => isAsciiLetter c || c = '-')) = none :=
      pChar_none_plain (d := ':') (by decide) hall _ hr2
    simp only [Option.bind_eq_bind, Option.some_bind, hx, Option.none_bind]

theorem mCssC_none {l : List Char} (hall : ∀ c ∈ l, plainChar c = true)
    (lit : String) (hmem : '-' ∈ lit.toList) :
    ∀ t, t <:+ l → mCssC lit t = none := by
  intro t ht
  have hx : pLitCI lit.toList t = none :=
    pLitCI_none_plain hmem (by decide) hall t ht
  unfold mCssC
  rw [hx]
  rfl

theorem mQP3D_none {l : List Char} (hall : ∀ c ∈ l, plainChar c = true) :
    ∀ t, t <:+ l → mQP3D t = none := by
  intro t ht
  have hx : pLit "=3D".toList t = none :=
    pLit_none_plain (d := '=') (by decide) (by decide) hall t ht
  unfold mQP3D
  rw [hx]
  rfl

theorem mQP20_none {l : List Char} (hall : ∀ c ∈ l, plainChar c = true) :
    ∀ t, t <:+ l → mQP20 t = none := by
  intro t ht
  have hx : pLit "=20".toList t = none :=
    pLit_none_plain (d := '=') (by decide) (by decide) hall t ht
  unfold mQP20
  rw [hx]
  rfl

theorem mSoftBreak_none {l : List Char} (hall : ∀ c ∈ l, plainChar c = true) :
    ∀ t, t <:+ l → mSoftBreak t = none := by
  intro t ht
  have hx : pChar '=' t = none :=
    pChar_none_plain (d := '=') (by decide) hall t ht
  unfold mSoftBreak
  rw [hx]
  rfl

theorem mEnt_none {l : List Char} (hall : ∀ c ∈ l, plainChar c = true)
    (pat repl : String) (hmem : '&' ∈ pat.toList) :
    ∀ t, t <:+ l → mEnt pat repl t = none := by
  intro t ht
  have hx : pLit pat.toList t = none :=
    pLit_none_plain hmem (by decide) hall t ht
  unfold mEnt
  rw [hx]
  rfl

theorem mNumEnt_none {l : List Char} (hall : ∀ c ∈ l, plainChar c = true) :
    ∀ t, t <:+ l → mNumEnt t = none := by
  intro t ht
  have hx : pLit "&#".toList t = none :=
    pLit_none_plain (d := '&') (by decide) (by decide) hall t ht
  unfold mNumEnt
  rw [hx]
  rfl

theorem mHexEnt_none {l : List Char} (hall : ∀ c ∈ l, plainChar c = true) :
    ∀ t, t <:+ l → mHexEnt t = none := by
  intro t ht
  have hx : pLitCI "&#x".toList t = none :=
    pLitCI_none_plain (d := '&') (by decide) (by decide) hall t ht
  unfold mHexEnt
  rw [hx]
  rfl

theorem mUrl_none {l : List Char} (hall : ∀ c ∈ l, plainChar c = true) :
    ∀ t, t <:+ l → mUrl t = none := by
  intro t ht
  unfold mUrl
  rcases h1 : pLitCI "http".toList t with _ | r1
  · rfl
  · have hr1 : r1 <:+ l := (pLitCI_suffix h1).trans ht
    have hr2 : (pCharCI 's' r1).getD r1 <:+ l := by
      rcases h2 : pCharCI 's' r1 with _ | r2
      · simpa using hr1
      · simpa using (pCharCI_suffix h2).trans hr1
    have hx : pLit "://".toList ((pCharCI 's' r1).getD r1) = none :=
      pLit_none_plain (d := ':') (by decide) (by decide) hall _ hr2
    simp only [Option.bind_eq_bind, Option.some_bind, hx, Option.none_bind]

theorem mCRLF_none {l : List Char} (hall : ∀ c ∈ l, plainChar c = true) :
    ∀ t, t <:+ l → mCRLF t = none := by
  intro t ht
  have hx : pLit "\r\n".toList t = none :=
    pLit_none_plain (d := '\r') (by decide) (by decide) hall t ht
  unfold mCRLF
  rw [hx]
  rfl

theorem mCR_none {l : List Char} (hall : ∀ c ∈ l, plainChar c = true) :
    ∀ t, t <:+ l → mCR t = none := by
  intro t ht
  have hx : pChar '\r' t = none :=
    pChar_none_plain (d := '\r') (by decide) hall t ht
  unfold mCR
  rw [hx]
  rfl

theorem isJsWs_plain {c : Char} (h : plainChar c = true) : isJsWs c = spChar c := by
  have := plainChar_spec (p := fun c => isJsWs c == spChar c) (by decide) h
  exact eq_of_beq this

theorem adjOk_tail {a : Char} {rest : List Char}
    (h : adjOk (a :: rest) = true) : adjOk rest = true := by
  cases rest with
  | nil => rfl
  | cons b bs =>
    simp only [adjOk, Bool.and_eq_true] at h
    exact h.2

theorem adjOk_pair {a b : Char} {bs : List Char}
    (h : adjOk (a :: b :: bs) = true) : (spChar a && spChar b) = false := by
  simp only [adjOk, Bool.and_eq_true] at h
  have h1 := h.1
  cases hab : (spChar a && spChar b)
  · rfl
  · rw [hab] at h1; simp at h1

theorem adjOk_suffix {l t : List Char} (h : adjOk l = true) (ht : t <:+ l) :
    adjOk t = true := by
  obtain ⟨pre, hpre⟩ := ht
  induction pre generalizing l with
  | nil => simp only [List.nil_append] at hpre; exact hpre ▸ h
  | cons p ps ih =>
    have hl : l = p :: (ps ++ t) := by rw [← hpre]; rfl
    exact ih (adjOk_tail (hl ▸ h)) rfl

theorem mNl3_none {l : List Char} (hall : ∀ c ∈ l, plainChar c = true)
    (hadj : adjOk l = true) : ∀ t, t <:+ l → mNl3 t = none := by
  intro t ht
  unfold mNl3
  rw [if_neg]
  intro h3
  cases t with
  | nil => simp at h3
  | cons c cs =>
    by_cases hc : c = '\n'
    · subst hc
      cases cs with
      | nil => simp [List.takeWhile] at h3
      | cons b bs =>
        have hpair := adjOk_pair (adjOk_suffix hadj ht)
        by_cases hb : b = '\n'
        · subst hb; simp [spChar] at hpair
        · simp [List.takeWhile_cons, hb] at h3
    · simp [List.takeWhile_cons, hc] at h3

theorem mSpTab2_none {l : List Char} (hall : ∀ c ∈ l, plainChar c = true)
    (hadj : adjOk l = true) : ∀ t, t <:+ l → mSpTab2 t = none := by
  intro t ht
  unfold mSpTab2
  rw [if_neg]
  intro h2
  cases t with
  | nil => simp at h2
  | cons c cs =>
    have hc : plainChar c = true := hall c (ht.subset (by simp))
    have hct : c ≠ '\t' := plainChar_ne hc (by decide)
    by_cases hcs : c = ' '
    · subst hcs
      cases cs with
      | nil => simp [List.takeWhile] at h2
      | cons b bs =>
        have hb : plainChar b = true := hall b (ht.subset (by simp))
        have hbt : b ≠ '\t' := plainChar_ne hb (by decide)
        have hpair := adjOk_pair (adjOk_suffix hadj ht)
        by_cases hbs : b = ' '
        · subst hbs; simp [spChar] at hpair
        · simp [List.takeWhile_cons, hbs, hbt] at h2
    · simp [List.takeWhile_cons, hcs, hct] at h2

theorem mTrailWS_none {l : List Char} (hall : ∀ c ∈ l, plainChar c = true)
    (hadj : adjOk l = true) (hlast : lastIsLetter l = true) :
    ∀ t, t <:+ l → mTrailWS t = none := by
  intro t ht
  unfold mTrailWS
  cases t with
  | nil => rfl
  | cons c cs =>
    have hc : plainChar c = true := hall c (ht.subset (by simp))
    by_cases hw : isJsWs c = true
    · have hsp : spChar c = true := (isJsWs_plain hc) ▸ hw
      have htail : cs.takeWhile isJsWs = [] := by
        cases cs with
        | nil => rfl
        | cons b bs =>
          have hb : plainChar b = true := hall b (ht.subset (by simp))
          have hpair := adjOk_pair (adjOk_suffix hadj ht)
          have hbw : isJsWs b = false := by
            rw [isJsWs_plain hb]
            cases hbs : spChar b
            · rfl
            · rw [hsp, hbs] at hpair; simp at hpair
          simp [List.takeWhile_cons, hbw]
      have hdrop : (c :: cs).dropWhile isJsWs = cs := by
        have : cs.dropWhile isJsWs = cs := by
          cases cs with
          | nil => rfl
          | cons b bs =>
            simp only [List.takeWhile_cons] at htail
            by_cases hbw : isJsWs b
            · simp [hbw] at htail
            · simp [List.dropWhile_cons, hbw]
        simp [List.dropWhile_cons, hw, this]
      have htake : (c :: cs).takeWhile isJsWs = [c] := by
        simp [List.takeWhile_cons, hw, htail]
      rw [htake, hdrop]
      cases hcs : cs with
      | nil =>
        -- then `c` is the last character of `l`, which must be a letter
        exfalso
        subst hcs
        obtain ⟨pre, hpre⟩ := ht
        have : lastIsLetter l = isPlainLetter c := by
          rw [← hpre]
          simp [lastIsLetter, headIsLetter]
        rw [this] at hlast
        have : spChar c = false := by
          revert hlast
          have := plainChar_spec
            (p := fun c => !(isPlainLetter c && spChar c)) (by decide) hc
          cases h1 : isPlainLetter c <;> cases h2 : spChar c <;>
            simp [h1, h2] at this ⊢
        rw [this] at hsp
        cases hsp
      | cons b bs =>
        simp only [List.isEmpty_cons, if_neg]
        have hcases : c = ' ' ∨ c = '\n' := by
          simpa [spChar] using hsp
        rcases hcases with rfl | rfl
        · simp [List.reverse_singleton, List.dropWhile]
        · simp [List.reverse_singleton, List.dropWhile, List.takeWhile]
    · simp [if_neg, hw]

theorem sll_eq_self {l : List Char} (hall : ∀ c ∈ l, plainChar c = true)
    (hadj : adjOk l = true) :
    ∀ t flag, t <:+ l →
      (flag = true → ∀ c, t.head? = some c → isJsWs c = false) →
      sll flag t = t := by
  intro t
  induction t with
  | nil => intro flag _ _; simp [sll]
  | cons c cs ih =>
    intro flag ht hflag
    have hcs : cs <:+ l := (List.suffix_cons c cs).trans ht
    have hcond : ¬((flag && isJsWs c) = true) := by
      cases hf : flag
      · simp
      · simp [hflag hf c rfl]
    rw [sll]
    simp only [if_neg hcond]
    congr 1
    apply ih (c == '\n') hcs
    intro hnl b hb
    cases cs with
    | nil => simp at hb
    | cons b' bs =>
      have hbb : b' = b := by simpa using hb
      have hbp : plainChar b' = true := hall b' (hcs.subset (by simp))
      have hpair := adjOk_pair (adjOk_suffix hadj ht)
      have hcnl : c = '\n' := by simpa using hnl
      rw [hcnl, show spChar '\n' = true from by decide, Bool.true_and] at hpair
      rw [← hbb, isJsWs_plain hbp, hpair]

theorem trimJs_eq_self {l : List Char} (hhead : headIsLetter l = true)
    (hlast : lastIsLetter l = true) : trimJs l = l := by
  have hletter : ∀ c : Char, isPlainLetter c = true → isJsWs c = false := by
    intro c h
    have := isPlainLetter_spec (p := fun c => !isJsWs c) (by decide) h
    simpa using this
  have h1 : l.dropWhile isJsWs = l := by
    cases l with
    | nil => rfl
    | cons c cs =>
      simp only [headIsLetter] at hhead
      simp [List.dropWhile_cons, hletter c hhead]
  have h2 : l.reverse.dropWhile isJsWs = l.reverse := by
    cases hr : l.reverse with
    | nil => rfl
    | cons c cs =>
      unfold lastIsLetter at hlast
      rw [hr] at hlast
      simp only [headIsLetter] at hlast
      simp [List.dropWhile_cons, hletter c hlast]
  unfold trimJs
  rw [h1, h2, List.reverse_reverse]

theorem splitNl_ne_nil : ∀ l : List Char, splitNl l ≠ [] := by
  intro l
  cases l with
  | nil => simp [splitNl]
  | cons c cs =>
    simp only [splitNl]
    split
    · simp
    · split <;> simp

theorem joinNl_splitNl : ∀ l : List Char, joinNl (splitNl l) = l := by
  intro l
  induction l with
  | nil => rfl
  | cons c cs ih =>
    by_cases hc : c = '\n'
    · subst hc
      simp only [splitNl, if_pos rfl]
      cases hS : splitNl cs with
      | nil => exact absurd hS (splitNl_ne_nil cs)
      | cons s ss =>
        rw [hS] at ih
        simpa [joinNl] using ih
    · simp only [splitNl, if_neg hc]
      cases hS : splitNl cs with
      | nil => exact absurd hS (splitNl_ne_nil cs)
      | cons ln lns =>
        rw [hS] at ih
        cases lns with
        | nil => simpa [joinNl] using ih
        | cons m ms =>
          simp only [joinNl, List.cons_append]
          simp only [joinNl] at ih
          rw [ih]

theorem applyEntities_eq_self {l : List Char}
    (hall : ∀ c ∈ l, plainChar c = true) : applyEntities l = l := by
  unfold applyEntities
  have hgen : ∀ ps : List (String × String), (∀ pr ∈ ps, '&' ∈ pr.1.toList) →
      ps.foldl (fun acc pr => runPass (mEnt pr.1 pr.2) acc) l = l := by
    intro ps hp
    induction ps with
    | nil => rfl
    | cons pr prs ih =>
      simp only [List.foldl_cons]
      rw [runPass_eq_self _ (mEnt_none hall pr.1 pr.2 (hp pr (by simp)))]
      exact ih fun q hq => hp q (by simp [hq])
  exact hgen entityTable (by decide)

/-- On plain text every pass of `cleanText` is the identity. -/
theorem cleanTextL_eq_self {l : List Char} (h : isPlainL l = true) :
    cleanTextL l = l := by
  simp only [isPlainL, Bool.and_eq_true] at h
  obtain ⟨⟨⟨⟨hall', hadj⟩, hhead⟩, hlast⟩, hkeep⟩ := h
  have hall : ∀ c ∈ l, plainChar c = true := List.all_eq_true.mp hall'
  by_cases hl : l.isEmpty
  · rw [List.isEmpty_iff] at hl
    subst hl
    rfl
  · simp only [cleanTextL, if_neg hl]
    rw [runPass_eq_self _ (mStyleBlock_none hall)]
    rw [runPass_eq_self _ (mStyleAttrD_none hall)]
    rw [runPass_eq_self _ (mStyleAttrS_none hall)]
    rw [runPass_eq_self _ (mScript_none hall)]
    rw [runPass_eq_self _ (mComment_none hall)]
    rw [runPass_eq_self _ (mTag_none hall)]
    rw [runPass_eq_self _ (mBrace_none hall)]
    rw [runPass_eq_self _ (mCssC_none hall "font-" (by decide))]
    rw [runPass_eq_self _ (mCssA_none hall "color:" (by decide))]
    rw [runPass_eq_self _ (mCssB_none hall "background")]
    rw [runPass_eq_self _ (mCssB_none hall "margin")]
    rw [runPass_eq_self _ (mCssB_none hall "padding")]
    rw [runPass_eq_self _ (mCssB_none hall "border")]
    rw [runPass_eq_self _ (mCssA_none hall "width:" (by decide))]
    rw [runPass_eq_self _ (mCssA_none hall "height:" (by decide))]
    rw [runPass_eq_self _ (mCssA_none hall "display:" (by decide))]
    rw [runPass_eq_self _ (mCssA_none hall "position:" (by decide))]
    rw [runPass_eq_self _ (mCssC_none hall "text-" (by decide))]
    rw [runPass_eq_self _ (mQP3D_none hall)]
    rw [runPass_eq_self _ (mQP20_none hall)]
    rw [runPass_eq_self _ (mSoftBreak_none hall)]
    rw [applyEntities_eq_self hall]
    rw [runPass_eq_self _ (mNumEnt_none hall)]
    rw [runPass_eq_self _ (mHexEnt_none hall)]
    rw [runPass_eq_self _ (mUrl_none hall)]
    rw [runPass_eq_self _ (mCRLF_none hall)]
    rw [runPass_eq_self _ (mCR_none hall)]
    rw [runPass_eq_self _ (mNl3_none hall hadj)]
    rw [runPass_eq_self _ (mSpTab2_none hall hadj)]
    rw [sll_eq_self hall hadj l true (List.suffix_refl l) ?hw]
    case hw =>
      intro _ c hc
      cases l with
      | nil => cases hc
      | cons a as =>
        have ha : a = c := by simpa using hc
        subst ha
        simp only [headIsLetter] at hhead
        have := isPlainLetter_spec (p := fun c => !isJsWs c) (by decide) hhead
        simpa using this
    rw [runPass_eq_self _ (mTrailWS_none hall hadj hlast)]
    rw [List.filter_eq_self.mpr (List.all_eq_true.mp hkeep)]
    rw [joinNl_splitNl]
    exact trimJs_eq_self hhead hlast

/-! ### Insertion sort

`Array.prototype.sort` with the numeric comparator of
`messages.sort((a, b) => parseFloat(a.ts) - parseFloat(b.ts))` produces a
list that is sorted for the comparator and a permutation of its input; any
comparison sort models it up to stability, which none of the claims
observes. -/

def insertLe {α : Type} (le : α → α → Bool) (x : α) : List α → List α
  | [] => [x]
  | y :: ys => if le x y then x :: y :: ys else y :: insertLe le x ys

def sortLe {α : Type} (le : α → α → Bool) : List α → List α
  | [] => []
  | x :: xs => insertLe le x (sortLe le xs)

theorem insertLe_perm {α : Type} (le : α → α → Bool) (x : α) :
    ∀ l : List α, List.Perm (insertLe le x l) (x :: l) := by
  intro l
  induction l with
  | nil => rfl
  | cons y ys ih =>
    by_cases h : le x y = true
    · simp [insertLe, h]
    · simp only [insertLe, if_neg h]
      exact (ih.cons y).trans (List.Perm.swap x y ys)

theorem sortLe_perm {α : Type} (le : α → α → Bool) :
    ∀ l : List α, List.Perm (sortLe le l) l := by
  intro l
  induction l with
  | nil => rfl
  | cons x xs ih =>
    exact (insertLe_perm le x (sortLe le xs)).trans (ih.cons x)

theorem insertLe_pairwise {α : Type} (le : α → α → Bool)
    (htot : ∀ a b, le a b = true ∨ le b a = true)
    (htrans : ∀ a b c, le a b = true → le b c = true → le a c = true)
    (x : α) : ∀ {l : List α}, l.Pairwise (fun a b => le a b = true) →
      (insertLe le x l).Pairwise (fun a b => le a b = true) := by
  intro l h
  induction l with
  | nil => simp [insertLe]
  | cons y ys ih =>
    rw [List.pairwise_cons] at h
    obtain ⟨hy, hys⟩ := h
    by_cases hxy : le x y = true
    · simp only [insertLe, if_pos hxy]
      rw [List.pairwise_cons]
      refine ⟨?_, List.pairwise_cons.mpr ⟨hy, hys⟩⟩
      intro z hz
      rcases List.mem_cons.mp hz with rfl | hz2
      · exact hxy
      · exact htrans x y z hxy (hy z hz2)
    · simp only [insertLe, if_neg hxy]
      rw [List.pairwise_cons]
      refine ⟨?_, ih hys⟩
      intro z hz
      have hz2 : z = x ∨ z ∈ ys := by
        have := (insertLe_perm le x ys).mem_iff.mp hz
        simpa using this
      rcases hz2 with rfl | hz3
      · rcases htot z y with h1 | h1
        · exact absurd h1 hxy
        · exact h1
      · exact hy z hz3

theorem sortLe_pairwise {α : Type} (le : α → α → Bool)
    (htot : ∀ a b, le a b = true ∨ le b a = true)
    (htrans : ∀ a b c, le a b = true → le b c = true → le a c = true) :
    ∀ l : List α, (sortLe le l).Pairwise (fun a b => le a b = true) := by
  intro l
  induction l with
  | nil => simp [sortLe]
  | cons x xs ih => exact insertLe_pairwise le htot htrans x ih

/-! ### The Slack archiver (slack-archiver/index.js)

Pagination loops are driven by a trace of API responses: the `n`-th
element of the trace is what the `n`-th `await this.client....` call
produces (`ok items hasNext` — `hasNext` is whether
`response_metadata.next_cursor` is non-empty — or `err` for a thrown
error).  An exhausted trace stands for a fetch that throws. -/

inductive FetchR (α : Type) where
  | ok (items : List α) (hasNext : Bool)
  | err
deriving DecidableEq

/-- The observable outcome of one paginated enumeration: the returned list,
how many fetch calls were issued, how many pacing delays were awaited, and
whether the `catch` branch was taken. -/
structure PageRun (α : Type) where
  items : List α
  fetches : Nat
  delays : Nat
  failed : Bool
deriving DecidableEq

/-- One Slack message: `ts` is `parseFloat(message.ts)` (modelled directly
as a number), `user` the optional sender id. -/
structure SMsg where
  ts : Nat
  user : Option Nat
  text : String
deriving DecidableEq

/-- The `do { ... } while (cursor)` loop shared by `getConversations` and
`getConversationHistory`, wrapped in `try/catch`: on a throw the `catch`
returns `[]`, dropping the accumulated `messages`.  `delayPerFetch` is the
number of pacing delays awaited in each loop body (1 for
`conversations.history`, which sleeps 1000 ms after every fetch, 0 for
`conversations.list`, which has no delay). -/
def slackLoop {α : Type} (delayPerFetch : Nat) :
    List (FetchR α) → List α → Nat → Nat → PageRun α
  | [], _, f, d => ⟨[], f + 1, d, true⟩
  | .err :: _, _, f, d => ⟨[], f + 1, d, true⟩
  | .ok its nxt :: rest, acc, f, d =>
    if nxt then slackLoop delayPerFetch rest (acc ++ its) (f + 1) (d + delayPerFetch)
    else ⟨acc ++ its, f + 1, d + delayPerFetch, false⟩

/-- Comparator `parseFloat(a.ts) - parseFloat(b.ts) ≤ 0` as a Boolean comparator. -/
def tsLe (a b : SMsg) : Bool := decide (a.ts ≤ b.ts)

/-- Function `SlackArchiver.getConversationHistory` (index.js lines 50–80): paginate
with a 1000 ms delay after every fetch, sort ascending by timestamp, and on
any error return `[]`. -/
def getConversationHistory (trace : List (FetchR SMsg)) : PageRun SMsg :=
  let r := slackLoop 1 trace [] 0 0
  if r.failed then r else { r with items := sortLe tsLe r.items }

/-- Function `SlackArchiver.getConversations` (index.js lines 24–48): the same loop
with no pacing delay and no sort. -/
def getConversations {α : Type} (trace : List (FetchR α)) : PageRun α :=
  slackLoop 0 trace [] 0 0

/-- Function `SlackArchiver.archive` (index.js lines 160–199): every conversation is
processed, each with its own try/catch; a failure in one conversation's
history does not stop the others. -/
def archiveItems (traces : List (List (FetchR SMsg))) : List (List SMsg) :=
  traces.map fun t => (getConversationHistory t).items

theorem slackLoop_err {α : Type} (d : Nat) (pages : List (List α))
    (rest : List (FetchR α)) :
    ∀ acc f dd,
      slackLoop d (pages.map (FetchR.ok · true) ++ FetchR.err :: rest) acc f dd =
        ⟨[], f + pages.length + 1, dd + pages.length * d, true⟩ := by
  induction pages with
  | nil => intro acc f dd; simp [slackLoop]
  | cons p ps ih =>
    intro acc f dd
    simp only [List.map_cons, List.cons_append, slackLoop]
    rw [if_pos (by trivial)]
    simp only [List.append_eq]
    rw [ih]
    simp only [PageRun.mk.injEq, List.length_cons, true_and, and_true]
    exact ⟨by omega, by ring⟩

theorem slackLoop_ok {α : Type} (d : Nat) (pages : List (List α))
    (lastPage : List α) :
    ∀ acc f dd,
      slackLoop d (pages.map (FetchR.ok · true) ++ [FetchR.ok lastPage false])
          acc f dd =
        ⟨acc ++ pages.flatten ++ lastPage, f + pages.length + 1,
         dd + (pages.length + 1) * d, false⟩ := by
  induction pages with
  | nil =>
    intro acc f dd
    simp [slackLoop]
  | cons p ps ih =>
    intro acc f dd
    simp only [List.map_cons, List.cons_append, slackLoop]
    rw [if_pos (by trivial)]
    simp only [List.append_eq]
    rw [ih]
    simp only [PageRun.mk.injEq, List.length_cons, List.flatten_cons,
      List.append_assoc, true_and, and_true]
    exact ⟨by omega, by ring⟩

/-! ### The Gmail message paginator (google-archiver/gmail-archiver.js 37–75)

`GmailArchiver.getMessages(query, maxResults)` is driven by a trace of
`users.messages.list` responses.  The requested page size
(`maxResults && !totalFetched ? Math.min(500, maxResults) : 500`) is
recorded per call in `caps` so that theorems can state that a trace
respects the requested caps.  `maxResults` is `Option Nat`; `some 0` is
falsy in JavaScript and therefore disables truncation, exactly as in the
source. -/

inductive GResp (α : Type) where
  | ok (msgs : List α) (hasNext : Bool)
  | err
deriving DecidableEq

structure GRun (α : Type) where
  items : List α
  fetches : Nat
  caps : List Nat
  failed : Bool
deriving DecidableEq

/-- The `maxResults` parameter sent with one `users.messages.list` call. -/
def gmailCap (k : Option Nat) (totalFetched : Nat) : Nat :=
  match k with
  | some m => if m ≠ 0 && totalFetched == 0 then min 500 m else 500
  | none => 500

def gmailLoop {α : Type} (k : Option Nat) :
    List (GResp α) → List α → Nat → List Nat → GRun α
  | [], acc, f, caps => ⟨[], f + 1, caps ++ [gmailCap k acc.length], true⟩
  | .err :: _, acc, f, caps => ⟨[], f + 1, caps ++ [gmailCap k acc.length], true⟩
  | .ok msgs nxt :: rest, acc, f, caps =>
    let caps2 := caps ++ [gmailCap k acc.length]
    let acc2 := acc ++ msgs
    let stop : Bool :=
      match k with
      | some m => decide (m ≠ 0) && decide (m ≤ acc2.length)
      | none => false
    if stop then ⟨acc2, f + 1, caps2, false⟩
    else if nxt then gmailLoop k rest acc2 (f + 1) caps2
    else ⟨acc2, f + 1, caps2, false⟩

/-- Function `GmailArchiver.getMessages`: accumulate pages, break once
`totalFetched >= maxResults`, return `[]` from the `catch` on error. -/
def getMessages {α : Type} (k : Option Nat) (trace : List (GResp α)) : GRun α :=
  gmailLoop k trace [] 0 []

/-! ### The Slack user-info cache (slack-archiver/index.js 82–111)

`getUserInfo` first consults `this.userCache`; on a miss it queries
`users.info` and caches the result — but only on success: a failed lookup
is not cached.  The identity service of one run is modelled as a fixed
function `service : Nat → Option SUser`. -/

structure SUser where
  real_name : Option String
  name : Option String
deriving DecidableEq

/-- Function `SlackArchiver.getUserInfo`: returns the resolved user (if any), the
updated cache, and whether the identity service was queried. -/
def getUserInfo (service : Nat → Option SUser)
    (cache : List (Nat × SUser)) (uid : Nat) :
    Option SUser × List (Nat × SUser) × Bool :=
  match cache.lookup uid with
  | some u => (some u, cache, false)
  | none =>
    match service uid with
    | some u => (some u, (uid, u) :: cache, true)
    | none => (none, cache, true)

/-- A sequence of `getUserInfo` calls within one run, threading the cache;
returns the final cache and the log of identifiers that reached the
service. -/
def runLookups (service : Nat → Option SUser) :
    List Nat → List (Nat × SUser) → List (Nat × SUser) × List Nat
  | [], cache => (cache, [])
  | uid :: rest, cache =>
    let r := getUserInfo service cache uid
    let rr := runLookups service rest r.2.1
    (rr.1, (if r.2.2 then [uid] else []) ++ rr.2)

/-- JavaScript `a || b` on an optional string: the empty string is falsy. -/
def jsOrS (a : Option String) (b : String) : String :=
  match a with
  | some s => if s == "" then b else s
  | none => b

/-- The sender label of `formatMessage` in the `message.user` branch:
`userInfo?.real_name || userInfo?.name || message.user`. -/
def resolvedName (res : Option SUser) (fallback : String) : String :=
  jsOrS (res.bind SUser.real_name) (jsOrS (res.bind SUser.name) fallback)

/-! ### The calendar month grouping (google-archiver/calendar-archiver.js 186–233)

`saveCalendarEvents` groups events into buckets keyed by
`` `${getFullYear()}-${pad2(getMonth() + 1)}` ``, sorts the keys
(lexicographic string sort, which for four-digit years and zero-padded
months agrees with the numeric order of `year * 100 + (month + 1)`), and
emits each bucket's events in input order.  The `Date` decomposition of the
start value into year and month is external library behaviour and is
abstracted as the two functions `yearOf` and `monthOf`. -/

structure CEvent where
  start : Nat
  title : String
deriving DecidableEq

/-- The grouping key of one event. -/
def monthKey (yearOf monthOf : Nat → Nat) (e : CEvent) : Nat :=
  yearOf e.start * 100 + (monthOf e.start + 1)

/-- Distinct keys in first-occurrence order (JavaScript object insertion
order, before `Object.keys(...).sort()`). -/
def dedupNat : List Nat → List Nat
  | [] => []
  | x :: xs => x :: (dedupNat xs).filter (· != x)

def natLeB (a b : Nat) : Bool := decide (a ≤ b)

/-- Function `CalendarArchiver.saveCalendarEvents`, restricted to the grouping and
ordering it performs: the produced association list has one entry per
distinct month key, keys ascending, each entry holding that month's events
in input order. -/
def saveCalendarEvents (yearOf monthOf : Nat → Nat) (events : List CEvent) :
    List (Nat × List CEvent) :=
  let key := monthKey yearOf monthOf
  let sortedKeys := sortLe natLeB (dedupNat (events.map key))
  sortedKeys.map fun k => (k, events.filter fun e => key e == k)

theorem dedupNat_nodup : ∀ l : List Nat, (dedupNat l).Nodup := by
  intro l
  induction l with
  | nil => simp [dedupNat]
  | cons x xs ih =>
    simp only [dedupNat, List.nodup_cons]
    constructor
    · intro hmem
      have := List.of_mem_filter hmem
      simp at this
    · exact ih.filter _

theorem mem_dedupNat : ∀ {l : List Nat} {a : Nat}, a ∈ dedupNat l ↔ a ∈ l := by
  intro l
  induction l with
  | nil => simp [dedupNat]
  | cons x xs ih =>
    intro a
    simp only [dedupNat, List.mem_cons, List.mem_filter]
    by_cases hax : a = x
    · simp [hax]
    · simp only [hax, false_or, bne_iff_ne, ne_eq, not_false_eq_true, and_true]
      exact ih

/-! ### Gmail nested-part extraction (gmail-archiver.js 99–131, 228–248)

The Gmail `payload` tree is modelled as a mutual inductive family so that
the recursion of `extractBody`/`extractAttachments` is structural: a part
has a `mimeType`, a `filename`, optional base64 body `data`, a body `size`,
and an optional (possibly empty) list of sub-parts.  `Buffer.from(...,
'base64').toString('utf-8')` is Node library behaviour and is abstracted as
a parameter `b64`; the repository's own `decodeBase64` wrapper (the falsy
guard and the `-`/`_` URL-safe fix-up) is transcribed. -/

mutual

inductive MPart where
  | mk (mimeType : String) (filename : String) (data : Option String)
       (size : Nat) (parts : MParts)

inductive MParts where
  | missing
  | present (l : MPartList)

inductive MPartList where
  | nil
  | cons (p : MPart) (ps : MPartList)

end

def MPart.mimeType : MPart → String
  | .mk m _ _ _ _ => m

def MPart.filename : MPart → String
  | .mk _ f _ _ _ => f

def MPart.data : MPart → Option String
  | .mk _ _ d _ _ => d

def MPart.size : MPart → Nat
  | .mk _ _ _ s _ => s

def MPart.parts : MPart → MParts
  | .mk _ _ _ _ p => p

/-- JavaScript truthiness of `part.parts`: present arrays (even empty ones)
are truthy. -/
def MParts.truthy : MParts → Bool
  | .missing => false
  | .present _ => true

/-- JavaScript truthiness of `part.body.data`. -/
def optTruthy : Option String → Bool
  | some s => !(s == "")
  | none => false

/-- The URL-safe fix-up of `decodeBase64`: every dash becomes a plus and
every underscore becomes a slash (two global replaces in the source). -/
def b64UrlFix (c : Char) : Char :=
  if c = '-' then '+' else if c = '_' then '/' else c

/-- Function `GmailArchiver.decodeBase64`, with the library decoder abstracted. -/
def decodeBase64 (b64 : String → String) (data : String) : String :=
  if data == "" then "" else b64 ⟨data.toList.map b64UrlFix⟩

mutual

/-- Function `GmailArchiver.extractBody`: single-part body data, then the parts
loop; the result is `cleanText`-ed unless `includeMarkup` is set. -/
def extractBody (b64 : String → String) (im : Bool) : MPart → String
  | .mk _ _ data _ parts =>
    let base :=
      match data with
      | some d => if d == "" then "" else decodeBase64 b64 d
      | none => ""
    let body := base ++ extractFromParts b64 im parts
    if im then body else cleanText body

def extractFromParts (b64 : String → String) (im : Bool) : MParts → String
  | .missing => ""
  | .present l => extractFromList b64 im l

/-- The `for (const part of payload.parts)` loop of `extractBody`. -/
def extractFromList (b64 : String → String) (im : Bool) : MPartList → String
  | .nil => ""
  | .cons p ps =>
    (if p.mimeType == "text/plain" && optTruthy p.data then
      decodeBase64 b64 (p.data.getD "")
     else if im && (p.mimeType == "text/html") && optTruthy p.data then
      "\n--- HTML Content ---\n" ++ decodeBase64 b64 (p.data.getD "") ++
        "\n--- End HTML ---\n"
     else if (p.parts).truthy then extractBody b64 im p
     else "") ++ extractFromList b64 im ps

end

structure MAttachment where
  filename : String
  mimeType : String
  size : Nat
deriving DecidableEq

mutual

/-- Function `GmailArchiver.extractAttachments`: collect `{filename, mimeType,
size}` for every part carrying a nonempty filename, recursing into nested
parts. -/
def extractAttachments : MPart → List MAttachment
  | .mk _ _ _ _ parts => attsFromParts parts

def attsFromParts : MParts → List MAttachment
  | .missing => []
  | .present l => attsFromList l

def attsFromList : MPartList → List MAttachment
  | .nil => []
  | .cons p ps =>
    (if !(p.filename == "") then [⟨p.filename, p.mimeType, p.size⟩] else []) ++
    (if (p.parts).truthy then extractAttachments p else []) ++
    attsFromList ps

end

/-! ### Claim theorems -/

/-- C1 (counterexample): the claim says a failed page fetch returns the
partial list already fetched; but after one successful page of one message a
failing second fetch makes `getConversationHistory` return `[]` — the
partial result is discarded, not retained. -/
theorem claimC1_counterexample :
    (getConversationHistory
      [FetchR.ok [⟨5, none, "fetched"⟩] true, FetchR.err]).items = [] ∧
    (getConversationHistory
      [FetchR.ok [⟨5, none, "fetched"⟩] true, FetchR.err]).items ≠
      [⟨5, none, "fetched"⟩] ∧
    (getMessages none [GResp.ok [0] true, GResp.err]).items = ([] : List Nat) ∧
    (getMessages none [GResp.ok [0] true, GResp.err]).items ≠ [0] := by decide

/-- Failure behaviour of the Gmail paginator: the `catch` also returns
`[]`, discarding partial pages. -/
theorem gmailLoop_err {α : Type} (pages : List (List α)) (rest : List (GResp α)) :
    ∀ acc f caps,
      (gmailLoop none (pages.map (GResp.ok · true) ++ GResp.err :: rest)
        acc f caps).items = [] ∧
      (gmailLoop none (pages.map (GResp.ok · true) ++ GResp.err :: rest)
        acc f caps).failed = true := by
  induction pages with
  | nil => intro acc f caps; exact ⟨rfl, rfl⟩
  | cons p ps ih =>
    intro acc f caps
    simp only [List.map_cons, List.cons_append, gmailLoop]
    rw [if_neg (by simp), if_pos (by trivial)]
    exact ih _ _ _

/-- C1 (amended): when a page fetch fails partway through a collection's
enumeration, the paginator aborts that collection and returns the empty
list — partial results from earlier pages are discarded, not retained —
and the run continues to the next collection (`archive` produces an
outcome for every conversation).  The same holds for the Gmail message
paginator. -/
theorem claimC1_amended (pages : List (List SMsg)) (rest : List (FetchR SMsg))
    (gpages : List (List Nat)) (grest : List (GResp Nat)) :
    (getConversationHistory
      (pages.map (FetchR.ok · true) ++ FetchR.err :: rest)).items = [] ∧
    (getConversationHistory
      (pages.map (FetchR.ok · true) ++ FetchR.err :: rest)).failed = true ∧
    (getMessages none (gpages.map (GResp.ok · true) ++ GResp.err :: grest)).items
      = [] ∧
    (∀ traces : List (List (FetchR SMsg)),
      (archiveItems traces).length = traces.length) := by
  refine ⟨?_, ?_, ?_, ?_⟩
  · simp [getConversationHistory, slackLoop_err 1 pages rest]
  · simp [getConversationHistory, slackLoop_err 1 pages rest]
  · exact (gmailLoop_err gpages grest [] 0 []).1
  · intro traces; simp [archiveItems]

/-- C4 (counterexample): on a successful two-page enumeration the history
paginator performs the pacing delay twice — once after each fetch,
including the last — not once (`N - 1`) as the claim states. -/
theorem claimC4_counterexample :
    (getConversationHistory [FetchR.ok [] true, FetchR.ok [] false]).fetches = 2 ∧
    (getConversationHistory [FetchR.ok [] true, FetchR.ok [] false]).delays = 2 ∧
    (getConversationHistory [FetchR.ok [] true, FetchR.ok [] false]).delays ≠
      2 - 1 := by decide

/-- C4 (amended): over an `N`-page enumeration the fetch function is called
exactly `N` times; the history paginator observes its fixed pacing delay
exactly `N` times (after every fetch, including the last), while the
conversations-list paginator observes no pacing delay at all; items are the
concatenation of all pages in order. -/
theorem claimC4_amended (pages : List (List SMsg)) (lastPage : List SMsg) :
    (getConversationHistory
      (pages.map (FetchR.ok · true) ++ [FetchR.ok lastPage false])).fetches =
        pages.length + 1 ∧
    (getConversationHistory
      (pages.map (FetchR.ok · true) ++ [FetchR.ok lastPage false])).delays =
        pages.length + 1 ∧
    (getConversations
      (pages.map (FetchR.ok · true) ++ [FetchR.ok lastPage false])).fetches =
        pages.length + 1 ∧
    (getConversations
      (pages.map (FetchR.ok · true) ++ [FetchR.ok lastPage false])).delays = 0 ∧
    (getConversations
      (pages.map (FetchR.ok · true) ++ [FetchR.ok lastPage false])).items =
        pages.flatten ++ lastPage := by
  have hh := slackLoop_ok 1 pages lastPage ([] : List SMsg) 0 0
  have hc := slackLoop_ok 0 pages lastPage ([] : List SMsg) 0 0
  refine ⟨?_, ?_, ?_, ?_, ?_⟩
  · simp [getConversationHistory, hh]
  · simp [getConversationHistory, hh]
  · simp [getConversations, hc]
  · simp [getConversations, hc]
  · simp [getConversations, hc]

/-- C6 (confirmed): after a full enumeration the history paginator sorts
the messages by timestamp ascending — whatever order the pages arrived in,
the returned list is ascending by `ts` and a permutation of the
concatenation of all pages. -/
theorem claimC6_sorted (pages : List (List SMsg)) (lastPage : List SMsg) :
    ((getConversationHistory
      (pages.map (FetchR.ok · true) ++ [FetchR.ok lastPage false])).items).Pairwise
        (fun a b => a.ts ≤ b.ts) ∧
    List.Perm
      ((getConversationHistory
        (pages.map (FetchR.ok · true) ++ [FetchR.ok lastPage false])).items)
      (pages.flatten ++ lastPage) := by
  have hh := slackLoop_ok 1 pages lastPage ([] : List SMsg) 0 0
  have htot : ∀ a b : SMsg, tsLe a b = true ∨ tsLe b a = true := by
    intro a b
    simp only [tsLe, decide_eq_true_eq]
    exact Nat.le_total a.ts b.ts
  have htrans : ∀ a b c : SMsg,
      tsLe a b = true → tsLe b c = true → tsLe a c = true := by
    intro a b c hab hbc
    simp only [tsLe, decide_eq_true_eq] at hab hbc ⊢
    exact Nat.le_trans hab hbc
  have hitems : (getConversationHistory
      (pages.map (FetchR.ok · true) ++ [FetchR.ok lastPage false])).items =
      sortLe tsLe (pages.flatten ++ lastPage) := by
    simp [getConversationHistory, hh]
  constructor
  · rw [hitems]
    have hp := sortLe_pairwise tsLe htot htrans (pages.flatten ++ lastPage)
    exact hp.imp fun h => by simpa [tsLe] using h
  · rw [hitems]
    exact sortLe_perm tsLe (pages.flatten ++ lastPage)

/-- C5 (counterexample): with `maxResults = 3` and a well-behaved server
that returns two messages per page (each within the requested caps, which
are 3 then 500), `getMessages` returns 4 items, not exactly `k = 3`, and 4
is more than the first page holds — the break only happens at a page
boundary after the total has reached `k`. -/
theorem claimC5_counterexample :
    (getMessages (some 3) [GResp.ok [0, 1] true, GResp.ok [2, 3] false]).items.length = 4 ∧
    (getMessages (some 3) [GResp.ok [0, 1] true, GResp.ok [2, 3] false]).items.length ≠ 3 ∧
    (getMessages (some 3) [GResp.ok [0, 1] true, GResp.ok [2, 3] false]).caps =
      [3, 500] := by decide

/-- C5 (amended): fetching stops at the first page boundary where the
running total has reached `maxResults = k`; exactly `k` items come back in
the specific case the claim's parenthetical describes — `k ≤ 500` (so the
first request is capped at `k`) and the server fills the first page to the
cap — in which case a single fetch is made and the enumeration stops
early.  In general the result can exceed `k` (see the counterexample). -/
theorem claimC5_amended {α : Type} (all : List α) (k : Nat)
    (h1 : 0 < k) (h2 : k ≤ 500) (h3 : k ≤ all.length) :
    getMessages (some k) [GResp.ok (all.take k) true] =
      ⟨all.take k, 1, [k], false⟩ ∧ (all.take k).length = k := by
  have hlen : (all.take k).length = k := by
    rw [List.length_take]; omega
  have hk0 : k ≠ 0 := Nat.pos_iff_ne_zero.mp h1
  constructor
  · have hcap : gmailCap (some k) 0 = k := by
      simp [gmailCap, hk0, Nat.min_eq_right h2]
    have hstop :
        (decide (k ≠ 0) && decide (k ≤ (([] : List α) ++ all.take k).length)) = true := by
      simp [hk0, hlen]
    simp only [getMessages, gmailLoop]
    rw [if_pos hstop]
    simp only [List.nil_append, List.length_nil, hcap, Nat.zero_add]
  · exact hlen

theorem claimC5_amended_witness :
    0 < 3 ∧ 3 ≤ 500 ∧ 3 ≤ (List.range 6).length ∧
    getMessages (some 3) [GResp.ok ((List.range 6).take 3) true] =
      ⟨(List.range 6).take 3, 1, [3], false⟩ :=
  ⟨by decide, by decide, by decide,
   (claimC5_amended (List.range 6) 3 (by decide) (by decide) (by decide)).1⟩

/-- The cache invariant behind C3: when the identity service resolves
`uid`, a run of lookups queries the service for `uid` at most once — and
not at all if `uid` is already cached. -/
theorem runLookups_count (service : Nat → Option SUser) (uid : Nat) (u : SUser)
    (hs : service uid = some u) :
    ∀ (lookups : List Nat) (cache : List (Nat × SUser)),
      ((runLookups service lookups cache).2).count uid ≤
        (if (cache.lookup uid).isSome = true then 0 else 1) := by
  intro lookups
  induction lookups with
  | nil => intro cache; simp [runLookups]
  | cons v rest ih =>
    intro cache
    simp only [runLookups]
    rcases hcv : cache.lookup v with _ | u'
    · by_cases hvu : v = uid
      · subst hvu
        simp only [getUserInfo, hcv, hs]
        have h2 := ih ((v, u) :: cache)
        rw [if_pos (by simp [List.lookup_cons])] at h2
        rw [if_neg (show ¬((none : Option SUser).isSome = true) from by simp),
            if_pos trivial, List.count_append]
        have hone : List.count v [v] = 1 := by simp
        omega
      · have huv : uid ≠ v := fun he => hvu he.symm
        have hzero : List.count uid [v] = 0 := by
          simp [List.count_cons, huv]
        rcases hsv : service v with _ | w
        · simp only [getUserInfo, hcv, hsv]
          have h2 := ih cache
          rw [if_pos trivial, List.count_append, hzero]
          omega
        · simp only [getUserInfo, hcv, hsv]
          have h2 := ih ((v, w) :: cache)
          have hlk : ((v, w) :: cache).lookup uid = cache.lookup uid := by
            rw [List.lookup_cons]
            have hbeq : (uid == v) = false := by simp [huv]
            rw [hbeq]
          rw [hlk] at h2
          rw [if_pos trivial, List.count_append, hzero]
          omega
    · simp only [getUserInfo, hcv]
      have h2 := ih cache
      rw [if_neg (show ¬(false = true) from by simp), List.nil_append]
      exact h2

/-- C3 (counterexample): when resolution of an identifier fails, the
failure is not cached, so two lookups of the same identifier query the
identity service twice — contradicting "the service is queried at most
once per identifier". -/
theorem claimC3_counterexample :
    ((runLookups (fun _ => none) [7, 7] []).2).count 7 = 2 ∧
    ¬(((runLookups (fun _ => none) [7, 7] []).2).count 7 ≤ 1) := by decide

/-- C3 (amended): the first successful lookup of an identifier stores the
result in the cache and every later lookup reuses it, so an identifier the
service resolves is queried at most once per run; only failed resolutions
are retried on later lookups (failures are not cached).  A failed
resolution degrades to the raw identifier in the formatted output instead
of failing the record. -/
theorem claimC3_amended (service : Nat → Option SUser) (uid : Nat) (u : SUser)
    (hs : service uid = some u) (lookups : List Nat) :
    ((runLookups service lookups []).2).count uid ≤ 1 ∧
    (∀ (uid2 : Nat) (cache : List (Nat × SUser)), cache.lookup uid2 = none →
      service uid2 = none →
      resolvedName (getUserInfo service cache uid2).1 (toString uid2) =
        toString uid2) := by
  constructor
  · have h := runLookups_count service uid u hs lookups []
    simpa using h
  · intro uid2 cache hc hn
    simp [getUserInfo, hc, hn, resolvedName, jsOrS]

def demoUser : SUser := ⟨some "Ada Lovelace", none⟩

def demoService : Nat → Option SUser := fun n => if n = 7 then some demoUser else none

theorem claimC3_amended_witness :
    demoService 7 = some demoUser ∧
    ((runLookups demoService [7, 7, 7] []).2).count 7 ≤ 1 ∧
    resolvedName (getUserInfo demoService [] 9).1 (toString 9) = toString 9 :=
  ⟨by decide,
   (claimC3_amended demoService 7 demoUser (by decide) [7, 7, 7]).1,
   (claimC3_amended demoService 7 demoUser (by decide) [7, 7, 7]).2 9 []
     (by decide) (by decide)⟩

/-- String-level identity of `cleanText` on plain text. -/
theorem cleanText_plain {s : String} (h : isPlainStr s = true) :
    cleanText s = s := by
  unfold cleanText
  rw [cleanTextL_eq_self h]
  cases s
  rfl

/-- C2 (counterexample): `cleanText` is not idempotent.  On `"&amp;lt;"`
the first pass decodes only `&amp;` (the `&lt;` pass has already run),
yielding `"&lt;"`; a second pass decodes that to `"<"`. -/
theorem claimC2_counterexample :
    cleanText (cleanText "&amp;lt;") ≠ cleanText "&amp;lt;" := by decide

/-- C2 (amended): `cleanText` is idempotent on plain text — strings of
ASCII letters, single spaces and single newlines, beginning and ending with
a letter, none of whose lines the CSS-remnant line filter drops — because
on such inputs it is the identity.  Full idempotence fails: re-application
can decode staged entity or quoted-printable encodings further (see the
counterexample). -/
theorem claimC2_amended (s : String) (h : isPlainStr s = true) :
    cleanText (cleanText s) = cleanText s := by
  have hc := cleanText_plain h
  rw [hc]
  exact hc

theorem claimC2_amended_witness :
    isPlainStr "Hello world\nsecond line" = true ∧
    cleanText (cleanText "Hello world\nsecond line") =
      cleanText "Hello world\nsecond line" :=
  ⟨by decide, claimC2_amended "Hello world\nsecond line" (by decide)⟩

/-- C9 (confirmed): the entity table decodes `"&amp;&lt;&gt;"` to
`"&<>"` — tag stripping has already happened by the time entities are
decoded, and `&lt;`/`&gt;` are replaced before `&amp;`. -/
theorem claimC9_entities : cleanText "&amp;&lt;&gt;" = "&<>" := by decide

theorem dropWhile_head_not (p : Char → Bool) :
    ∀ l : List Char, ((l.dropWhile p).head?.all fun c => !p c) = true := by
  intro l
  induction l with
  | nil => rfl
  | cons c cs ih =>
    by_cases h : p c = true
    · simpa [List.dropWhile_cons, h] using ih
    · simp [List.dropWhile_cons, h]

theorem headAll_of_pref {q : Char → Bool} {r d : List Char}
    (hp : r <+: d) (hd : (d.head?.all q) = true) : (r.head?.all q) = true := by
  cases r with
  | nil => rfl
  | cons x xs =>
    obtain ⟨t, ht⟩ := hp
    rw [← ht] at hd
    simpa using hd

theorem trimJs_head (l : List Char) :
    ((trimJs l).head?.all fun c => !isJsWs c) = true := by
  unfold trimJs
  have h1 : ((l.dropWhile isJsWs).reverse.dropWhile isJsWs).reverse <+:
      l.dropWhile isJsWs := by
    have h2 : (l.dropWhile isJsWs).reverse.dropWhile isJsWs <:+
        (l.dropWhile isJsWs).reverse := List.dropWhile_suffix isJsWs
    have h3 := h2.reverse
    rwa [List.reverse_reverse] at h3
  exact headAll_of_pref h1 (dropWhile_head_not isJsWs l)

theorem trimJs_last (l : List Char) :
    ((trimJs l).getLast?.all fun c => !isJsWs c) = true := by
  unfold trimJs
  rw [List.getLast?_reverse]
  exact dropWhile_head_not isJsWs (l.dropWhile isJsWs).reverse

/-- C10 (confirmed): `cleanText` is total — falsy inputs (`null`,
`undefined`, the empty string) yield `""` — and its output never has
leading or trailing whitespace: the first and last characters of the result
are never in the trimmed whitespace class. -/
theorem claimC10_total_trimmed :
    cleanTextJS none = "" ∧ cleanTextJS (some "") = "" ∧
    ∀ s : Option String,
      (((cleanTextJS s).toList.head?.all fun c => !isJsWs c) = true ∧
       ((cleanTextJS s).toList.getLast?.all fun c => !isJsWs c) = true) := by
  refine ⟨rfl, by decide, ?_⟩
  intro s
  cases s with
  | none => exact ⟨rfl, rfl⟩
  | some str =>
    show ((cleanTextL str.toList).head?.all fun c => !isJsWs c) = true ∧
      ((cleanTextL str.toList).getLast?.all fun c => !isJsWs c) = true
    by_cases h : str.toList.isEmpty
    · rw [List.isEmpty_iff] at h
      have h2 : str.data = [] := h
      simp [cleanTextL, h2]
    · simp only [cleanTextL, if_neg h]
      exact ⟨trimJs_head _, trimJs_last _⟩

/-- C7 (confirmed): the events written by `saveCalendarEvents` are grouped
by year-month, the month groups appear in ascending order, and — because
`getEvents` requests `orderBy: 'startTime'` with `singleEvents: true`, so
the enumerated list arrives start-ascending, which grouping preserves —
each group's events are sorted by start time ascending.  Every event lands
in the group of its own key. -/
theorem claimC7_grouping (yearOf monthOf : Nat → Nat) (events : List CEvent)
    (hsorted : events.Pairwise fun a b => a.start ≤ b.start) :
    ((saveCalendarEvents yearOf monthOf events).map Prod.fst).Pairwise (· < ·) ∧
    (∀ g ∈ saveCalendarEvents yearOf monthOf events,
      g.2.Pairwise (fun a b => a.start ≤ b.start) ∧
      ∀ e ∈ g.2, monthKey yearOf monthOf e = g.1) ∧
    (∀ e ∈ events, ∃ g ∈ saveCalendarEvents yearOf monthOf events, e ∈ g.2) := by
  have htot : ∀ a b : Nat, natLeB a b = true ∨ natLeB b a = true := by
    intro a b
    simp only [natLeB, decide_eq_true_eq]
    exact Nat.le_total a b
  have htrans : ∀ a b c : Nat,
      natLeB a b = true → natLeB b c = true → natLeB a c = true := by
    intro a b c hab hbc
    simp only [natLeB, decide_eq_true_eq] at hab hbc ⊢
    exact Nat.le_trans hab hbc
  refine ⟨?_, ?_, ?_⟩
  · -- keys ascending: sorted (≤) by construction, strict by nodup
    have hperm := sortLe_perm natLeB (dedupNat (events.map (monthKey yearOf monthOf)))
    have hnd : (sortLe natLeB (dedupNat (events.map (monthKey yearOf monthOf)))).Nodup :=
      hperm.nodup_iff.mpr (dedupNat_nodup _)
    have hle := sortLe_pairwise natLeB htot htrans
      (dedupNat (events.map (monthKey yearOf monthOf)))
    have hlt : (sortLe natLeB (dedupNat (events.map (monthKey yearOf monthOf)))).Pairwise
        (· < ·) := by
      have hand := hle.and hnd
      exact hand.imp fun h =>
        lt_of_le_of_ne (by simpa [natLeB] using h.1) h.2
    simp only [saveCalendarEvents, List.map_map]
    rw [List.pairwise_map]
    simpa using hlt
  · intro g hg
    simp only [saveCalendarEvents, List.mem_map] at hg
    obtain ⟨k, hk, rfl⟩ := hg
    constructor
    · exact hsorted.filter _
    · intro e he
      have := List.mem_filter.mp he
      simpa using this.2
  · intro e he
    refine ⟨(monthKey yearOf monthOf e,
      events.filter fun x => monthKey yearOf monthOf x == monthKey yearOf monthOf e),
      ?_, ?_⟩
    · simp only [saveCalendarEvents, List.mem_map]
      refine ⟨monthKey yearOf monthOf e, ?_, rfl⟩
      exact (sortLe_perm natLeB _).mem_iff.mpr
        (mem_dedupNat.mpr (List.mem_map_of_mem _ he))
    · exact List.mem_filter.mpr ⟨he, by simp⟩

theorem claimC7_grouping_witness :
    ([⟨10, "a"⟩, ⟨110, "b"⟩, ⟨120, "c"⟩] : List CEvent).Pairwise
      (fun a b => a.start ≤ b.start) ∧
    ((saveCalendarEvents (fun _ => 2024) (fun s => s / 100)
      [⟨10, "a"⟩, ⟨110, "b"⟩, ⟨120, "c"⟩]).map Prod.fst).Pairwise (· < ·) :=
  ⟨by decide,
   (claimC7_grouping (fun _ => 2024) (fun s => s / 100)
     [⟨10, "a"⟩, ⟨110, "b"⟩, ⟨120, "c"⟩] (by decide)).1⟩

/-- C8 (confirmed): on a three-level structure — a top part whose sub-parts
are two `text/plain` parts carrying body data, the second of which contains
a sub-sub-part carrying a filename — `extractBody` yields the sub-parts'
decoded texts concatenated in traversal order (provided the decoded text is
plain, so the final `cleanText` of the non-markup mode leaves it intact),
and `extractAttachments` yields exactly the sub-sub-part's filename entry.
The base64 decoder of the Node `Buffer` library is abstracted as `b64`. -/
theorem claimC8_extraction (b64 : String → String) (mtTop mtSS : String)
    (szTop sz1 sz2 szSS : Nat) (d1 d2 f : String)
    (h1 : d1 ≠ "") (h2 : d2 ≠ "") (hf : f ≠ "")
    (hplain : isPlainStr (decodeBase64 b64 d1 ++ decodeBase64 b64 d2) = true) :
    extractBody b64 false
      (.mk mtTop "" none szTop (.present (.cons
        (.mk "text/plain" "" (some d1) sz1 .missing) (.cons
        (.mk "text/plain" "" (some d2) sz2 (.present (.cons
          (.mk mtSS f none szSS .missing) .nil))) .nil)))) =
      decodeBase64 b64 d1 ++ decodeBase64 b64 d2 ∧
    extractAttachments
      (.mk mtTop "" none szTop (.present (.cons
        (.mk "text/plain" "" (some d1) sz1 .missing) (.cons
        (.mk "text/plain" "" (some d2) sz2 (.present (.cons
          (.mk mtSS f none szSS .missing) .nil))) .nil)))) =
      [⟨f, mtSS, szSS⟩] := by
  constructor
  · rw [extractBody]
    simp only [extractFromParts, extractFromList, MPart.mimeType, MPart.data,
      MPart.parts, optTruthy, h1, h2, Option.getD_some, beq_self_eq_true,
      Bool.and_eq_true, if_pos, Bool.false_eq_true, if_false]
    have hb1 : (d1 == "") = false := by simp [h1]
    have hb2 : (d2 == "") = false := by simp [h2]
    simp only [hb1, hb2, Bool.not_false, Bool.and_true, Bool.true_and,
      if_pos, String.append_empty, String.empty_append]
    exact cleanText_plain hplain
  · rw [extractAttachments]
    simp only [attsFromParts, attsFromList, extractAttachments,
      MPart.filename, MPart.mimeType, MPart.size, MPart.parts, MParts.truthy]
    have hbf : (f == "") = false := by simp [hf]
    simp [hbf]

theorem claimC8_extraction_witness :
    ("Hello" : String) ≠ "" ∧ ("World" : String) ≠ "" ∧
    ("doc.pdf" : String) ≠ "" ∧
    isPlainStr (decodeBase64 (fun s => s) "Hello" ++
      decodeBase64 (fun s => s) "World") = true ∧
    extractBody (fun s => s) false
      (.mk "multipart/mixed" "" none 0 (.present (.cons
        (.mk "text/plain" "" (some "Hello") 5 .missing) (.cons
        (.mk "text/plain" "" (some "World") 5 (.present (.cons
          (.mk "application/pdf" "doc.pdf" none 9 .missing) .nil))) .nil)))) =
      decodeBase64 (fun s => s) "Hello" ++ decodeBase64 (fun s => s) "World" :=
  ⟨by decide, by decide, by decide, by decide,
   (claimC8_extraction (fun s => s) "multipart/mixed" "application/pdf" 0 5 5 9
     "Hello" "World" "doc.pdf" (by decide) (by decide) (by decide)
     (by decide)).1⟩
